import Mathlib

/-!
Verification of the HomFA command-line driver (src/src/main.cpp and the two
unnamed source files) against its natural-language specification.

The driver code under src/ is translated directly.  The Graph class, the
DFA runners and the FHE primitives are declared in headers that are not part
of this repository snapshot; where a claim depends on them they are modelled
from the specification, each such definition carrying a doc comment that
starts with the words Modelled from the spec.

The FHE ciphertexts are modelled at plaintext level: the specification treats
the TFHE library as opaque with documented semantics (encrypt/decrypt are
inverse, CMUX is an if-then-else on the hidden bit), so a ciphertext is
represented by the Boolean it encrypts.
-/

/-- Modelled from the spec: an FFT-domain TRGSW ciphertext encrypting one
Boolean atomic proposition (an AP-Bit).  Represented by its plaintext. -/
structure TRGSWLvl1FFT where
  bit : Bool
deriving DecidableEq

/-- Modelled from the spec: a TLWE level-1 ciphertext encrypting a Boolean
(an Acceptance-Bit).  Represented by its plaintext. -/
structure TLWELvl1 where
  bit : Bool
deriving DecidableEq

/-- Modelled from the spec: a TRLWE weight vector; the offline evaluator only
ever reads slot 0, so only that slot is represented. -/
structure TRLWELvl1 where
  slot0 : Bool
deriving DecidableEq

/-- Modelled from the spec: symmetric encryption of one bit into a TRGSW. -/
def encrypt_bit_to_TRGSWLvl1FFT (b : Bool) : TRGSWLvl1FFT := ⟨b⟩

/-- Modelled from the spec: a trivial TRLWE whose plaintext slot holds the
given Boolean (the base-case weight vectors of the offline evaluator). -/
def trivialTRLWELvl1 (b : Bool) : TRLWELvl1 := ⟨b⟩

/-- Modelled from the spec: the homomorphic multiplexer.
CMUX(c, a, b) = if c then a else b. -/
def cmux (c : TRGSWLvl1FFT) (a b : TRLWELvl1) : TRLWELvl1 :=
  if c.bit then a else b

/-- Modelled from the spec: sample extraction of slot 0 of a TRLWE. -/
def sampleExtractSlot0 (w : TRLWELvl1) : TLWELvl1 := ⟨w.slot0⟩

/-- Translated from src/src/main.cpp (do_dec): decrypt a TLWE to a Boolean;
at plaintext level this recovers the hidden bit. -/
def decrypt_TLWELvl1_to_bit (c : TLWELvl1) : Bool := c.bit

/-- The DFA intermediate representation.  Modelled from the spec (the Graph
class itself is declared in a header outside this snapshot): a vertex set
indexed contiguously from 0, an initial vertex, a final set, and for each
vertex one 0-child and one 1-child, stored as tables. -/
structure Graph where
  size : Nat
  init : Nat
  finals : List Nat
  delta0 : List Nat
  delta1 : List Nat
deriving DecidableEq

/-- The b-child of a vertex, read from the transition tables. -/
def Graph.child (G : Graph) (b : Bool) (v : Nat) : Nat :=
  (bif b then G.delta1 else G.delta0).getD v 0

/-- Membership of a vertex in the final set. -/
def Graph.isFinal (G : Graph) (v : Nat) : Bool := G.finals.contains v

/-- Well-formedness of a graph, as the spec states it: the initial vertex is
a vertex, each vertex has exactly one 0-child and one 1-child, and all
children are vertices. -/
def Graph.WF (G : Graph) : Prop :=
  G.init < G.size ∧
  G.delta0.length = G.size ∧ G.delta1.length = G.size ∧
  (∀ v ∈ G.delta0, v < G.size) ∧ (∀ v ∈ G.delta1, v < G.size)

instance (G : Graph) : Decidable G.WF := by
  unfold Graph.WF; infer_instance

/-- Running the DFA from a vertex over a word of input bits. -/
def Graph.runFrom (G : Graph) (v : Nat) : List Bool → Nat
  | [] => v
  | b :: w => G.runFrom (G.child b v) w

/-- accept(G, w): the acceptance bit of the DFA run on w. -/
def Graph.accept (G : Graph) (w : List Bool) : Bool :=
  G.isFinal (G.runFrom G.init w)

theorem Graph.WF.child_lt {G : Graph} (h : G.WF) {v : Nat} (hv : v < G.size)
    (b : Bool) : G.child b v < G.size := by
  obtain ⟨-, h0, h1, hm0, hm1⟩ := h
  unfold Graph.child
  cases b with
  | false =>
      show (G.delta0.getD v 0) < G.size
      have hlen : v < G.delta0.length := by omega
      rw [List.getD_eq_getElem _ _ hlen]
      exact hm0 _ (List.getElem_mem hlen)
  | true =>
      show (G.delta1.getD v 0) < G.size
      have hlen : v < G.delta1.length := by omega
      rw [List.getD_eq_getElem _ _ hlen]
      exact hm1 _ (List.getElem_mem hlen)

theorem Graph.WF.runFrom_lt {G : Graph} (h : G.WF) :
    ∀ (w : List Bool) {v : Nat}, v < G.size → G.runFrom v w < G.size := by
  intro w
  induction w with
  | nil => intro v hv; exact hv
  | cons b w ih => intro v hv; exact ih (h.child_lt hv b)

/-!
## Encryption of the input file (translated from src/src/main.cpp, do_enc)

For each byte read from the input file, eight bits are extracted, least
significant first (the byte is first narrowed to eight bits by the cast to
uint8_t), and each bit is encrypted to one TRGSW ciphertext.
-/

/-- The eight bits of one plaintext byte, least significant first, exactly as
the inner loop of do_enc extracts them. -/
def byteBits (ch : Nat) : List Bool :=
  (List.range 8).map (fun i => ((ch % 256) >>> i) % 2 == 1)

/-- The bit sequence of a whole byte file, in byte order with the bits of
each byte least-significant first. -/
def bitsOfBytes : List Nat → List Bool
  | [] => []
  | ch :: rest => byteBits ch ++ bitsOfBytes rest

/-- Translated from src/src/main.cpp (do_enc): encrypt the bytes of the
input file bit by bit, eight ciphertexts per byte, LSB first. -/
def do_enc (bytes : List Nat) : List TRGSWLvl1FFT :=
  (bitsOfBytes bytes).map encrypt_bit_to_TRGSWLvl1FFT

theorem byteBits_length (ch : Nat) : (byteBits ch).length = 8 := by
  simp [byteBits]

theorem bitsOfBytes_length (bytes : List Nat) :
    (bitsOfBytes bytes).length = 8 * bytes.length := by
  induction bytes with
  | nil => rfl
  | cons ch rest ih =>
      simp [bitsOfBytes, byteBits_length, ih, List.length_append]
      ring

theorem do_enc_length (bytes : List Nat) :
    (do_enc bytes).length = 8 * bytes.length := by
  simp [do_enc, bitsOfBytes_length]

theorem byteBits_get (ch i : Nat) (hi : i < 8) :
    (byteBits ch).get? i = some (((ch % 256) >>> i) % 2 == 1) := by
  simp [byteBits, List.get?_eq_getElem?, List.getElem?_map, hi,
    List.getElem?_range]

theorem bitsOfBytes_get (bytes : List Nat) :
    ∀ (j i : Nat), j < bytes.length → i < 8 →
      (bitsOfBytes bytes).get? (8 * j + i) =
        some (((bytes.getD j 0 % 256) >>> i) % 2 == 1) := by
  induction bytes with
  | nil => intro j i hj _; exact absurd hj (Nat.not_lt_zero j)
  | cons ch rest ih =>
      intro j i hj hi
      cases j with
      | zero =>
          have hlt : 8 * 0 + i < (byteBits ch).length := by
            rw [byteBits_length]; omega
          rw [bitsOfBytes, List.get?_eq_getElem?,
            List.getElem?_append_left hlt]
          have := byteBits_get ch i hi
          rw [List.get?_eq_getElem?] at this
          simpa using this
      | succ j' =>
          have hlen : (byteBits ch).length ≤ 8 * (j' + 1) + i := by
            rw [byteBits_length]; omega
          rw [bitsOfBytes, List.get?_eq_getElem?,
            List.getElem?_append_right hlen]
          have harith : 8 * (j' + 1) + i - (byteBits ch).length =
              8 * j' + i := by
            rw [byteBits_length]; omega
          rw [harith]
          have := ih j' i (by simpa using hj) hi
          rw [List.get?_eq_getElem?] at this
          simpa using this

/-!
## The offline evaluator (Modelled from the spec, section 4.3)

The runner holds one weight vector per state; the base case at depth N marks
the final states, and each step on a ciphertext of the reversed input stream
performs one CMUX per state, selecting between the weight vectors of the two
children.  The reversed input stream adapter enumerates the ciphertext blob
from end to start (spec, section 4.2).
-/

/-- Modelled from the spec: one backward step of the offline evaluator.
The new weight of state v is CMUX of the ciphertext with the weights of the
1-child and the 0-child. -/
def offlineStep (G : Graph) (w : Nat → TRLWELvl1) (x : TRGSWLvl1FFT) :
    Nat → TRLWELvl1 :=
  fun v => cmux x (w (G.child true v)) (w (G.child false v))

/-- Modelled from the spec: the offline evaluator consumes the reversed
stream first-to-last, starting from the base-case weights that mark the
final states. -/
def offlineEval (G : Graph) (revStream : List TRGSWLvl1FFT) :
    Nat → TRLWELvl1 :=
  revStream.foldl (offlineStep G) (fun v => trivialTRLWELvl1 (G.isFinal v))

theorem offlineEval_aux (G : Graph) :
    ∀ (rs : List TRGSWLvl1FFT) (u : List Bool) (v : Nat),
      ((rs.foldl (offlineStep G)
          (fun v => trivialTRLWELvl1 (G.isFinal (G.runFrom v u)))) v).slot0 =
        G.isFinal (G.runFrom v ((rs.map TRGSWLvl1FFT.bit).reverse ++ u)) := by
  intro rs
  induction rs with
  | nil => intro u v; simp [trivialTRLWELvl1]
  | cons x rs ih =>
      intro u v
      have hstep :
          offlineStep G
              (fun v => trivialTRLWELvl1 (G.isFinal (G.runFrom v u))) x =
            fun v =>
              trivialTRLWELvl1 (G.isFinal (G.runFrom v (x.bit :: u))) := by
        funext v
        unfold offlineStep cmux
        cases hb : x.bit with
        | false => simp [Graph.runFrom, hb]
        | true => simp [Graph.runFrom, hb]
      rw [List.foldl_cons, hstep, ih (x.bit :: u) v]
      congr 1
      simp [List.append_assoc]

/-- The plaintext carried by the offline evaluation of a reversed stream is
the acceptance indicator of the forward word, from any start state. -/
theorem offlineEval_slot0 (G : Graph) (blob : List TRGSWLvl1FFT) (v : Nat) :
    ((offlineEval G blob.reverse) v).slot0 =
      G.isFinal (G.runFrom v (blob.map TRGSWLvl1FFT.bit)) := by
  unfold offlineEval
  have h := offlineEval_aux G blob.reverse [] v
  simp only [Graph.runFrom, List.append_nil] at h
  rw [h, List.map_reverse, List.reverse_reverse]

/-!
## Minimization (Modelled from the spec, section 4.1)

Modelled from the spec: the method Graph::minimized is not under src/ (only
its call sites are).  The spec describes it as partition refinement over the
initial partition (F, V minus F), using the two alphabet symbols 0 and 1 as
splitters, iterated until the partition is stable, returning a graph whose
vertex indices are the block indices.  The refinement fixpoint is computed
here in the classic table form: each round maps every vertex to the index of
its signature (own block, block of the 0-child, block of the 1-child) in the
deduplicated list of signatures; after size-many rounds the partition is
provably stable.
-/

/-- The position of the first occurrence of an element in a list (the block
index assigned to a signature by a refinement round). -/
def posOf {α : Type} [DecidableEq α] : List α → α → Nat
  | [], _ => 0
  | x :: xs, a => if x = a then 0 else posOf xs a + 1

theorem posOf_lt_length {α : Type} [DecidableEq α] {l : List α} {a : α}
    (h : a ∈ l) : posOf l a < l.length := by
  induction l with
  | nil => exact absurd h (List.not_mem_nil a)
  | cons x xs ih =>
      by_cases hx : x = a
      · simp [posOf, hx]
      · have hmem : a ∈ xs := by
          rcases List.mem_cons.1 h with h1 | h1
          · exact absurd h1.symm hx
          · exact h1
        simp only [posOf, if_neg hx, List.length_cons]
        exact Nat.succ_lt_succ (ih hmem)

theorem getD_posOf {α : Type} [DecidableEq α] {l : List α} {a : α}
    (h : a ∈ l) (d : α) : l.getD (posOf l a) d = a := by
  induction l with
  | nil => exact absurd h (List.not_mem_nil a)
  | cons x xs ih =>
      by_cases hx : x = a
      · simp [posOf, hx]
      · have hmem : a ∈ xs := by
          rcases List.mem_cons.1 h with h1 | h1
          · exact absurd h1.symm hx
          · exact h1
        simp only [posOf, if_neg hx]
        exact ih hmem

/-- The block of vertex v in the class table c. -/
def clsGet (c : List Nat) (v : Nat) : Nat := c.getD v 0

/-- The refinement signature of a vertex: its own block and the blocks of
its 0-child and 1-child. -/
def Graph.sigOf (G : Graph) (c : List Nat) (v : Nat) : Nat × Nat × Nat :=
  (clsGet c v, clsGet c (G.child false v), clsGet c (G.child true v))

/-- The signatures of all vertices, in vertex order. -/
def Graph.sigTable (G : Graph) (c : List Nat) : List (Nat × Nat × Nat) :=
  (List.range G.size).map (G.sigOf c)

/-- One refinement round: every vertex is sent to the index of its signature
in the deduplicated signature list. -/
def Graph.refineTable (G : Graph) (c : List Nat) : List Nat :=
  (G.sigTable c).map (fun s => posOf (G.sigTable c).dedup s)

/-- The initial partition (F, V minus F), encoded as block 1 for final
vertices and block 0 for the rest. -/
def Graph.cls0 (G : Graph) : List Nat :=
  (List.range G.size).map (fun v => bif G.isFinal v then 1 else 0)

/-- The class table after size-many refinement rounds; by then the partition
is stable. -/
def Graph.clsMapT (G : Graph) : List Nat :=
  (G.refineTable)^[G.size] G.cls0

/-- The distinct block values of the stable partition, in first-occurrence
order; their positions are the vertex indices of the minimized graph. -/
def Graph.clsVals (G : Graph) : List Nat := G.clsMapT.dedup

/-- The block index of a vertex in the minimized graph. -/
def Graph.canon (G : Graph) (v : Nat) : Nat :=
  posOf G.clsVals (clsGet G.clsMapT v)

/-- A representative vertex of a block of the stable partition. -/
def Graph.repOf (G : Graph) (k : Nat) : Nat :=
  ((List.range G.size).find? (fun v => G.canon v == k)).getD 0

/-- Modelled from the spec: Hopcroft partition refinement over (F, V minus F)
with the alphabet symbols 0 and 1 as splitters, iterated until stable; the
returned graph has the partition blocks as vertices, preserving language
equivalence. -/
def Graph.minimized (G : Graph) : Graph where
  size := G.clsVals.length
  init := G.canon G.init
  finals := (List.range G.clsVals.length).filter
    (fun k => G.isFinal (G.repOf k))
  delta0 := (List.range G.clsVals.length).map
    (fun k => G.canon (G.child false (G.repOf k)))
  delta1 := (List.range G.clsVals.length).map
    (fun k => G.canon (G.child true (G.repOf k)))

/-- Stability of a class table: vertices in the same block have their whole
signatures equal, so no splitter refines the partition further. -/
def Graph.StableOn (G : Graph) (c : List Nat) : Prop :=
  ∀ v u, v < G.size → u < G.size → clsGet c v = clsGet c u →
    G.sigOf c v = G.sigOf c u

theorem getD_map_range {α : Type} (n : Nat) (f : Nat → α) (v : Nat)
    (h : v < n) (d : α) : ((List.range n).map f).getD v d = f v := by
  have hlen : v < ((List.range n).map f).length := by simpa using h
  rw [List.getD_eq_getElem _ _ hlen]
  simp

theorem Graph.refineTable_length (G : Graph) (c : List Nat) :
    (G.refineTable c).length = G.size := by
  simp [Graph.refineTable, Graph.sigTable]

theorem Graph.iter_refine_length (G : Graph) (k : Nat) :
    ((G.refineTable)^[k] G.cls0).length = G.size := by
  induction k with
  | zero => simp [Graph.cls0]
  | succ k ih => rw [Function.iterate_succ_apply']; exact G.refineTable_length _

theorem Graph.clsMapT_length (G : Graph) : G.clsMapT.length = G.size :=
  G.iter_refine_length G.size

theorem Graph.sigOf_mem_sigTable (G : Graph) (c : List Nat) {v : Nat}
    (hv : v < G.size) : G.sigOf c v ∈ G.sigTable c :=
  List.mem_map.2 ⟨v, List.mem_range.2 hv, rfl⟩

theorem Graph.clsGet_refineTable (G : Graph) (c : List Nat) {v : Nat}
    (hv : v < G.size) :
    clsGet (G.refineTable c) v =
      posOf (G.sigTable c).dedup (G.sigOf c v) := by
  show (G.refineTable c).getD v 0 = _
  rw [Graph.refineTable, Graph.sigTable, List.map_map]
  exact getD_map_range G.size _ v hv 0

theorem Graph.sigOf_eq_of_refine_eq (G : Graph) (c : List Nat) {v u : Nat}
    (hv : v < G.size) (hu : u < G.size)
    (h : clsGet (G.refineTable c) v = clsGet (G.refineTable c) u) :
    G.sigOf c v = G.sigOf c u := by
  rw [G.clsGet_refineTable c hv, G.clsGet_refineTable c hu] at h
  have hmv : G.sigOf c v ∈ (G.sigTable c).dedup :=
    List.mem_dedup.2 (G.sigOf_mem_sigTable c hv)
  have hmu : G.sigOf c u ∈ (G.sigTable c).dedup :=
    List.mem_dedup.2 (G.sigOf_mem_sigTable c hu)
  have h1 := getD_posOf hmv (0, 0, 0)
  have h2 := getD_posOf hmu (0, 0, 0)
  rw [h] at h1
  rw [← h1, h2]

theorem Graph.clsGet_eq_of_refine_eq (G : Graph) (c : List Nat) {v u : Nat}
    (hv : v < G.size) (hu : u < G.size)
    (h : clsGet (G.refineTable c) v = clsGet (G.refineTable c) u) :
    clsGet c v = clsGet c u :=
  congrArg (fun s => s.1) (G.sigOf_eq_of_refine_eq c hv hu h)

theorem Graph.refine_eq_of_sigOf_eq (G : Graph) (c : List Nat) {v u : Nat}
    (hv : v < G.size) (hu : u < G.size) (h : G.sigOf c v = G.sigOf c u) :
    clsGet (G.refineTable c) v = clsGet (G.refineTable c) u := by
  rw [G.clsGet_refineTable c hv, G.clsGet_refineTable c hu, h]

theorem Graph.stableOn_refineTable (G : Graph) (hWF : G.WF) {c : List Nat}
    (hs : G.StableOn c) : G.StableOn (G.refineTable c) := by
  intro v u hv hu h
  have hsig : G.sigOf c v = G.sigOf c u :=
    hs v u hv hu (congrArg (fun s => s.1) (G.sigOf_eq_of_refine_eq c hv hu h))
  have h0 : clsGet (G.refineTable c) (G.child false v) =
      clsGet (G.refineTable c) (G.child false u) := by
    apply G.refine_eq_of_sigOf_eq c (hWF.child_lt hv false)
      (hWF.child_lt hu false)
    exact hs _ _ (hWF.child_lt hv false) (hWF.child_lt hu false)
      (congrArg (fun s => s.2.1) hsig)
  have h1 : clsGet (G.refineTable c) (G.child true v) =
      clsGet (G.refineTable c) (G.child true u) := by
    apply G.refine_eq_of_sigOf_eq c (hWF.child_lt hv true)
      (hWF.child_lt hu true)
    exact hs _ _ (hWF.child_lt hv true) (hWF.child_lt hu true)
      (congrArg (fun s => s.2.2) hsig)
  unfold Graph.sigOf
  rw [h, h0, h1]

/-- The set of block values appearing in a class table. -/
def Graph.clsSet (G : Graph) (c : List Nat) : Finset Nat :=
  (Finset.range G.size).image (clsGet c)

/-- Recover the previous block value of a vertex from its refined block
index, by looking the signature up in the deduplicated signature list. -/
def Graph.backOf (G : Graph) (c : List Nat) (k : Nat) : Nat :=
  ((G.sigTable c).dedup.getD k (0, 0, 0)).1

theorem Graph.backOf_refine (G : Graph) (c : List Nat) {v : Nat}
    (hv : v < G.size) :
    G.backOf c (clsGet (G.refineTable c) v) = clsGet c v := by
  rw [G.clsGet_refineTable c hv]
  unfold Graph.backOf
  rw [getD_posOf (List.mem_dedup.2 (G.sigOf_mem_sigTable c hv)) (0, 0, 0)]
  rfl

theorem Graph.clsSet_factor (G : Graph) (c : List Nat) :
    G.clsSet c = (G.clsSet (G.refineTable c)).image (G.backOf c) := by
  unfold Graph.clsSet
  rw [Finset.image_image]
  apply Finset.image_congr
  intro v hv
  simp only [Finset.coe_range, Set.mem_Iio] at hv
  exact (G.backOf_refine c hv).symm

theorem Graph.card_clsSet_mono (G : Graph) (c : List Nat) :
    (G.clsSet c).card ≤ (G.clsSet (G.refineTable c)).card := by
  rw [G.clsSet_factor c]
  exact Finset.card_image_le

theorem Graph.card_clsSet_le (G : Graph) (c : List Nat) :
    (G.clsSet c).card ≤ G.size :=
  le_trans Finset.card_image_le (le_of_eq (Finset.card_range G.size))

theorem Graph.card_clsSet_pos (G : Graph) (c : List Nat) (h : 0 < G.size) :
    0 < (G.clsSet c).card :=
  Finset.card_pos.2 (Finset.Nonempty.image ⟨0, Finset.mem_range.2 h⟩ _)

theorem Graph.card_lt_of_not_stableOn (G : Graph) {c : List Nat}
    (h : ¬ G.StableOn c) :
    (G.clsSet c).card < (G.clsSet (G.refineTable c)).card := by
  unfold Graph.StableOn at h
  push_neg at h
  obtain ⟨v, u, hv, hu, hc, hsig⟩ := h
  have hne : clsGet (G.refineTable c) v ≠ clsGet (G.refineTable c) u :=
    fun he => hsig (G.sigOf_eq_of_refine_eq c hv hu he)
  rcases eq_or_lt_of_le (G.card_clsSet_mono c) with heq | hlt
  · exfalso
    have hinj : Set.InjOn (G.backOf c) ↑(G.clsSet (G.refineTable c)) := by
      apply Finset.card_image_iff.1
      rw [← G.clsSet_factor c]
      exact heq
    have hvmem : clsGet (G.refineTable c) v ∈ G.clsSet (G.refineTable c) :=
      Finset.mem_image.2 ⟨v, Finset.mem_range.2 hv, rfl⟩
    have humem : clsGet (G.refineTable c) u ∈ G.clsSet (G.refineTable c) :=
      Finset.mem_image.2 ⟨u, Finset.mem_range.2 hu, rfl⟩
    apply hne
    apply hinj hvmem humem
    rw [G.backOf_refine c hv, G.backOf_refine c hu, hc]
  · exact hlt

theorem Graph.stableOn_clsMapT (G : Graph) (hWF : G.WF) :
    G.StableOn G.clsMapT := by
  have hnpos : 0 < G.size := lt_of_le_of_lt (Nat.zero_le _) hWF.1
  have hgrow : ∀ k, (∀ j, j < k → ¬ G.StableOn ((G.refineTable)^[j] G.cls0)) →
      k + 1 ≤ (G.clsSet ((G.refineTable)^[k] G.cls0)).card := by
    intro k
    induction k with
    | zero => intro _; simpa using G.card_clsSet_pos _ hnpos
    | succ k ih =>
        intro hall
        have h1 := ih (fun j hj => hall j (Nat.lt_succ_of_lt hj))
        have h2 := G.card_lt_of_not_stableOn (hall k (Nat.lt_succ_self k))
        rw [Function.iterate_succ_apply']
        omega
  by_cases hex : ∃ j, j < G.size ∧ G.StableOn ((G.refineTable)^[j] G.cls0)
  · obtain ⟨j, hj, hsj⟩ := hex
    have hstep : ∀ m, G.StableOn ((G.refineTable)^[j + m] G.cls0) := by
      intro m
      induction m with
      | zero => simpa using hsj
      | succ m ih =>
          have harith : j + (m + 1) = (j + m) + 1 := by omega
          rw [harith, Function.iterate_succ_apply']
          exact G.stableOn_refineTable hWF ih
    have hfin := hstep (G.size - j)
    have hjj : j + (G.size - j) = G.size := by omega
    rw [hjj] at hfin
    exact hfin
  · exfalso
    push_neg at hex
    have h1 := hgrow G.size (fun j hj => hex j hj)
    have h2 := G.card_clsSet_le ((G.refineTable)^[G.size] G.cls0)
    omega

theorem Graph.isFinal_eq_of_cls0_eq (G : Graph) {v u : Nat} (hv : v < G.size)
    (hu : u < G.size) (h : clsGet G.cls0 v = clsGet G.cls0 u) :
    G.isFinal v = G.isFinal u := by
  unfold clsGet Graph.cls0 at h
  rw [getD_map_range _ _ _ hv, getD_map_range _ _ _ hu] at h
  cases hfv : G.isFinal v <;> cases hfu : G.isFinal u
  · rfl
  · rw [hfv, hfu] at h; simp at h
  · rw [hfv, hfu] at h; simp at h
  · rfl

theorem Graph.clsGet_iter_imp (G : Graph) :
    ∀ (k : Nat) {v u : Nat}, v < G.size → u < G.size →
      clsGet ((G.refineTable)^[k] G.cls0) v =
        clsGet ((G.refineTable)^[k] G.cls0) u →
      clsGet G.cls0 v = clsGet G.cls0 u := by
  intro k
  induction k with
  | zero => intro v u _ _ h; simpa using h
  | succ k ih =>
      intro v u hv hu h
      rw [Function.iterate_succ_apply'] at h
      exact ih hv hu (G.clsGet_eq_of_refine_eq _ hv hu h)

theorem Graph.isFinal_eq_of_clsMapT_eq (G : Graph) {v u : Nat}
    (hv : v < G.size) (hu : u < G.size)
    (h : clsGet G.clsMapT v = clsGet G.clsMapT u) :
    G.isFinal v = G.isFinal u :=
  G.isFinal_eq_of_cls0_eq hv hu (G.clsGet_iter_imp G.size hv hu h)

theorem Graph.clsMapT_mem_clsVals (G : Graph) {v : Nat} (hv : v < G.size) :
    clsGet G.clsMapT v ∈ G.clsVals := by
  unfold Graph.clsVals
  rw [List.mem_dedup]
  unfold clsGet
  have hlen : v < G.clsMapT.length := by rw [G.clsMapT_length]; exact hv
  rw [List.getD_eq_getElem _ _ hlen]
  exact List.getElem_mem hlen

theorem Graph.canon_lt (G : Graph) {v : Nat} (hv : v < G.size) :
    G.canon v < G.clsVals.length :=
  posOf_lt_length (G.clsMapT_mem_clsVals hv)

theorem Graph.canon_eq_iff (G : Graph) {v u : Nat} (hv : v < G.size)
    (hu : u < G.size) :
    G.canon v = G.canon u ↔ clsGet G.clsMapT v = clsGet G.clsMapT u := by
  constructor
  · intro h
    have h1 := getD_posOf (G.clsMapT_mem_clsVals hv) 0
    have h2 := getD_posOf (G.clsMapT_mem_clsVals hu) 0
    unfold Graph.canon at h
    rw [h] at h1
    rw [← h1, h2]
  · intro h
    unfold Graph.canon
    rw [h]

theorem Graph.repOf_spec (G : Graph) {v : Nat} (hv : v < G.size) :
    G.repOf (G.canon v) < G.size ∧
      G.canon (G.repOf (G.canon v)) = G.canon v := by
  unfold Graph.repOf
  have hsome :
      (((List.range G.size).find? (fun u => G.canon u == G.canon v))).isSome := by
    rw [List.find?_isSome]
    exact ⟨v, List.mem_range.2 hv, by simp⟩
  obtain ⟨u, hu⟩ := Option.isSome_iff_exists.1 hsome
  rw [hu]
  simp only [Option.getD_some]
  have h1 := List.find?_some hu
  have h2 := List.mem_of_find?_eq_some hu
  refine ⟨List.mem_range.1 h2, ?_⟩
  simpa using h1

theorem Graph.minimized_child (G : Graph) (hWF : G.WF) {v : Nat}
    (hv : v < G.size) (b : Bool) :
    (G.minimized).child b (G.canon v) = G.canon (G.child b v) := by
  obtain ⟨hrlt, hrc⟩ := G.repOf_spec hv
  have hcl := G.canon_lt hv
  have hcm : clsGet G.clsMapT (G.repOf (G.canon v)) = clsGet G.clsMapT v :=
    (G.canon_eq_iff hrlt hv).1 hrc
  have hst := G.stableOn_clsMapT hWF _ _ hrlt hv hcm
  have hchild : clsGet G.clsMapT (G.child b (G.repOf (G.canon v))) =
      clsGet G.clsMapT (G.child b v) := by
    cases b
    · exact congrArg (fun s => s.2.1) hst
    · exact congrArg (fun s => s.2.2) hst
  have hcc := (G.canon_eq_iff (hWF.child_lt hrlt b) (hWF.child_lt hv b)).2
    hchild
  cases b with
  | false =>
      show ((List.range G.clsVals.length).map
        (fun k => G.canon (G.child false (G.repOf k)))).getD (G.canon v) 0 = _
      rw [getD_map_range _ _ _ hcl]
      exact hcc
  | true =>
      show ((List.range G.clsVals.length).map
        (fun k => G.canon (G.child true (G.repOf k)))).getD (G.canon v) 0 = _
      rw [getD_map_range _ _ _ hcl]
      exact hcc

theorem Graph.minimized_isFinal (G : Graph) {v : Nat} (hv : v < G.size) :
    (G.minimized).isFinal (G.canon v) = G.isFinal v := by
  obtain ⟨hrlt, hrc⟩ := G.repOf_spec hv
  have hfr : G.isFinal (G.repOf (G.canon v)) = G.isFinal v :=
    G.isFinal_eq_of_clsMapT_eq hrlt hv ((G.canon_eq_iff hrlt hv).1 hrc)
  have hcl := G.canon_lt hv
  show ((List.range G.clsVals.length).filter
      (fun k => G.isFinal (G.repOf k))).contains (G.canon v) = G.isFinal v
  cases hfv : G.isFinal v with
  | true =>
      have hmem : G.canon v ∈ (List.range G.clsVals.length).filter
          (fun k => G.isFinal (G.repOf k)) := by
        rw [List.mem_filter]
        refine ⟨List.mem_range.2 hcl, ?_⟩
        rw [hfr]
        exact hfv
      simpa using hmem
  | false =>
      cases hcont : ((List.range G.clsVals.length).filter
          (fun k => G.isFinal (G.repOf k))).contains (G.canon v) with
      | false => rfl
      | true =>
          exfalso
          have hmem : G.canon v ∈ (List.range G.clsVals.length).filter
              (fun k => G.isFinal (G.repOf k)) := by simpa using hcont
          have := (List.mem_filter.1 hmem).2
          rw [hfr, hfv] at this
          simp at this

theorem Graph.minimized_runFrom (G : Graph) (hWF : G.WF) :
    ∀ (w : List Bool) {v : Nat}, v < G.size →
      (G.minimized).runFrom (G.canon v) w = G.canon (G.runFrom v w) := by
  intro w
  induction w with
  | nil => intro v _; rfl
  | cons b w ih =>
      intro v hv
      show (G.minimized).runFrom ((G.minimized).child b (G.canon v)) w = _
      rw [G.minimized_child hWF hv b]
      exact ih (hWF.child_lt hv b)

/-- Minimization preserves the recognized language: the quotient by the
stable refinement partition accepts exactly the words the original graph
accepts. -/
theorem Graph.minimized_accept (G : Graph) (hWF : G.WF) (w : List Bool) :
    (G.minimized).accept w = G.accept w := by
  unfold Graph.accept
  show (G.minimized).isFinal ((G.minimized).runFrom (G.canon G.init) w) = _
  rw [G.minimized_runFrom hWF w hWF.1]
  exact G.minimized_isFinal (hWF.runFrom_lt w hWF.1)

/-!
## The offline pipeline (translated from src/src/main.cpp)
-/

/-- Modelled from the spec: the reversed input stream adapter enumerates the
ciphertext blob from end to start (spec, section 4.2). -/
def reversedStream (blob : List TRGSWLvl1FFT) : List TRGSWLvl1FFT :=
  blob.reverse

/-- Translated from src/src/main.cpp (do_run_offline_dfa): the spec graph is
loaded and minimized, the offline runner evaluates it over the reversed
input stream, and the written result is the acceptance TLWE of the initial
state (sample extract of slot 0 of its weight vector). -/
def do_run_offline_dfa (G : Graph) (blob : List TRGSWLvl1FFT) : TLWELvl1 :=
  sampleExtractSlot0
    (offlineEval G.minimized (reversedStream blob) G.minimized.init)

theorem do_enc_bits (bytes : List Nat) :
    (do_enc bytes).map TRGSWLvl1FFT.bit = bitsOfBytes bytes := by
  unfold do_enc
  rw [List.map_map]
  exact List.map_id _

/-- C1: for every DFA G and plaintext input, encrypting the input,
evaluating the offline runner on G over the ciphertext blob and decrypting
the produced TLWE with the same key yields exactly the acceptance bit of
the DFA run on the input bit sequence. -/
theorem offline_pipeline_correct (G : Graph) (hWF : G.WF)
    (bytes : List Nat) :
    decrypt_TLWELvl1_to_bit (do_run_offline_dfa G (do_enc bytes)) =
      G.accept (bitsOfBytes bytes) := by
  unfold do_run_offline_dfa decrypt_TLWELvl1_to_bit sampleExtractSlot0
    reversedStream
  rw [offlineEval_slot0, do_enc_bits]
  show (G.minimized).accept (bitsOfBytes bytes) = _
  exact G.minimized_accept hWF _

/-- The two-state automaton accepting the bit strings with an even number
of ones (scenario S1 of the spec). -/
def evenOnesG : Graph :=
  { size := 2, init := 0, finals := [0], delta0 := [0, 1], delta1 := [1, 0] }

/-- Witness for C1 at a concrete input: the pipeline applied to the byte
0xB5 on the even-number-of-ones automaton. -/
theorem offline_pipeline_correct_witness :
    evenOnesG.WF ∧
      decrypt_TLWELvl1_to_bit (do_run_offline_dfa evenOnesG (do_enc [181])) =
        evenOnesG.accept (bitsOfBytes [181]) :=
  ⟨by decide, offline_pipeline_correct evenOnesG (by decide) [181]⟩

/-- C5: accept(minimize(G), w) equals accept(G, w) for every DFA G and every
input word w; Hopcroft partition refinement preserves the language. -/
theorem minimize_preserves_accept (G : Graph) (hWF : G.WF) (w : List Bool) :
    (G.minimized).accept w = G.accept w :=
  G.minimized_accept hWF w

/-- A three-state automaton with two language-equivalent accepting sink
states, whose minimization therefore collapses states. -/
def collapsibleG : Graph :=
  { size := 3, init := 0, finals := [1, 2], delta0 := [1, 1, 2],
    delta1 := [2, 1, 2] }

/-- Witness for C5 at a concrete graph and word. -/
theorem minimize_preserves_accept_witness :
    collapsibleG.WF ∧
      (collapsibleG.minimized).accept [true, false] =
        collapsibleG.accept [true, false] :=
  ⟨by decide, minimize_preserves_accept collapsibleG (by decide)
    [true, false]⟩

/-!
## Reversal and negation (Modelled from the spec, section 4.1)
-/

/-- The set of vertices whose b-child lies in the subset S (subsets of the
vertex set are encoded as bitmasks); this is the transition function of the
subset-NFA of the edge-reversed graph. -/
def Graph.preimageMask (G : Graph) (b : Bool) (S : Nat) : Nat :=
  (List.range G.size).foldl
    (fun acc u => if S.testBit (G.child b u) then acc ||| (1 <<< u) else acc) 0

/-- The final set of the graph as a bitmask; the start subset of the
determinized reversal. -/
def Graph.finalsMask (G : Graph) : Nat :=
  (List.range G.size).foldl
    (fun acc v => if G.isFinal v then acc ||| (1 <<< v) else acc) 0

/-- Breadth-first discovery of the subsets reachable in the reversed
subset-NFA; the fuel bounds the number of processed work items by the
number of possible subsets. -/
def Graph.detLoop (G : Graph) : Nat → List Nat → List Nat → List Nat
  | 0, found, _ => found
  | _ + 1, found, [] => found
  | fuel + 1, found, S :: work =>
      let t0 := G.preimageMask false S
      let t1 := G.preimageMask true S
      let found1 := if found.contains t0 then found else found ++ [t0]
      let work1 := if found.contains t0 then work else work ++ [t0]
      let found2 := if found1.contains t1 then found1 else found1 ++ [t1]
      let work2 := if found1.contains t1 then work1 else work1 ++ [t1]
      G.detLoop fuel found2 work2

/-- Modelled from the spec: Graph::reversed is not under src/.  The spec
describes it as the subset-NFA of the edge-reversed graph, determinized:
the start subset is the final set, the subset reached on bit b is the set
of vertices whose b-child lies in the current subset, and a subset accepts
when it contains the original initial vertex.  Reachable subsets are
discovered breadth-first and numbered in discovery order, the start subset
receiving index 0. -/
def Graph.reversed (G : Graph) : Graph :=
  let start := G.finalsMask
  let states := G.detLoop (2 ^ G.size) [start] [start]
  { size := states.length
    init := 0
    finals := (List.range states.length).filter
      (fun k => (states.getD k 0).testBit G.init)
    delta0 := states.map (fun S => posOf states (G.preimageMask false S))
    delta1 := states.map (fun S => posOf states (G.preimageMask true S)) }

/-- Modelled from the spec: negation replaces the final set F by its
complement V minus F, leaving the rest of the structure unchanged. -/
def Graph.negated (G : Graph) : Graph :=
  { G with finals :=
      (List.range G.size).filter (fun v => !(G.finals.contains v)) }

/-!
## Claim C2: the graph used by the online-reversed runner
-/

/-- Translated from src/src/main.cpp (do_run_online_dfa2, line 142): the
graph handed to OnlineDFARunner2 is the loaded spec graph with reversed()
applied, and nothing else. -/
def online2Graph (G : Graph) : Graph := G.reversed

/-- C2 (amended): the graph the online-reversed runner is constructed with
is the reversed, determinized form of the DFA loaded from the spec file; no
minimization pass is applied to it. -/
theorem online2_graph_is_reversed (G : Graph) : online2Graph G = G.reversed :=
  rfl

/-- A three-state DFA with a vertex unreachable from the initial vertex;
determinizing its reversal yields a four-subset DFA in which two subsets
are language-equivalent, so the result is not minimal. -/
def unreachC2G : Graph :=
  { size := 3, init := 0, finals := [1, 2], delta0 := [0, 1, 0],
    delta1 := [1, 0, 0] }

/-- Counterexample to C2 as stated: for this spec graph the runner graph
(reversed only, four states) differs from the reversed, determinized,
minimized form (two states). -/
theorem online2_not_minimized_cex :
    online2Graph unreachC2G ≠ Graph.minimized (Graph.reversed unreachC2G) := by
  decide

/-!
## Claim C3: ciphertext layout produced by enc
-/

theorem shift_mod_eq_testBit (n i : Nat) :
    ((n >>> i) % 2 == 1) = n.testBit i := by
  rw [Nat.testBit_to_div_mod, Nat.shiftRight_eq_div_pow]
  by_cases h : n / 2 ^ i % 2 = 1
  · simp [h]
  · simp [h]

/-- C3: enc emits exactly 8 ciphertexts per plaintext byte, in byte order;
the i-th ciphertext emitted for byte j encrypts bit i (LSB first) of that
byte. -/
theorem enc_bit_layout (bytes : List Nat) (hb : ∀ b ∈ bytes, b < 256)
    (j i : Nat) (hj : j < bytes.length) (hi : i < 8) :
    (do_enc bytes).length = 8 * bytes.length ∧
      (do_enc bytes).get? (8 * j + i) =
        some (encrypt_bit_to_TRGSWLvl1FFT ((bytes.getD j 0).testBit i)) := by
  refine ⟨do_enc_length bytes, ?_⟩
  have h1 := bitsOfBytes_get bytes j i hj hi
  have hmem : bytes.getD j 0 ∈ bytes := by
    rw [List.getD_eq_getElem _ _ hj]
    exact List.getElem_mem hj
  have hmod : bytes.getD j 0 % 256 = bytes.getD j 0 :=
    Nat.mod_eq_of_lt (hb _ hmem)
  rw [hmod, shift_mod_eq_testBit] at h1
  unfold do_enc
  rw [List.get?_eq_getElem?, List.getElem?_map]
  rw [List.get?_eq_getElem?] at h1
  rw [h1]
  rfl

/-- Witness for C3 at the byte 0xB5 = 181, position j = 0, bit i = 3. -/
theorem enc_bit_layout_witness :
    ((∀ b ∈ [181], b < 256) ∧ 0 < [181].length ∧ 3 < 8) ∧
      ((do_enc [181]).length = 8 * [181].length ∧
        (do_enc [181]).get? (8 * 0 + 3) =
          some (encrypt_bit_to_TRGSWLvl1FFT (([181].getD 0 0).testBit 3))) :=
  ⟨⟨by decide, by decide, by decide⟩,
    enc_bit_layout [181] (by decide) 0 3 (by decide) (by decide)⟩

/-!
## Claim C6: the reachable-at-depth table
-/

/-- Modelled from the spec: the reachable-at-depth sets, R0 = the singleton
of the initial vertex and R(d+1) = the b-children of R(d) for the two bits
b. -/
def Graph.statesAtDepth (G : Graph) : Nat → Finset Nat
  | 0 => {G.init}
  | d + 1 =>
      ((G.statesAtDepth d).image (G.child false)) ∪
        ((G.statesAtDepth d).image (G.child true))

/-- Modelled from the spec: reserve_states_at_depth(N) precomputes the
table R0..RN once, for later lookup during offline evaluation. -/
def Graph.reserveStatesAtDepth (G : Graph) (N : Nat) : List (Finset Nat) :=
  (List.range (N + 1)).map G.statesAtDepth

theorem Graph.statesAtDepth_subset (G : Graph) (hWF : G.WF) :
    ∀ d, G.statesAtDepth d ⊆ Finset.range G.size := by
  intro d
  induction d with
  | zero =>
      intro x hx
      rw [Graph.statesAtDepth, Finset.mem_singleton] at hx
      subst hx
      exact Finset.mem_range.2 hWF.1
  | succ d ih =>
      intro x hx
      rw [Graph.statesAtDepth] at hx
      rcases Finset.mem_union.1 hx with h | h
      · obtain ⟨v, hv, rfl⟩ := Finset.mem_image.1 h
        exact Finset.mem_range.2
          (hWF.child_lt (Finset.mem_range.1 (ih hv)) false)
      · obtain ⟨v, hv, rfl⟩ := Finset.mem_image.1 h
        exact Finset.mem_range.2
          (hWF.child_lt (Finset.mem_range.1 (ih hv)) true)

/-- C6: after reserving the table for input length N, every entry of depth
at most N has at most as many states as the graph has vertices, and the
entry of depth 0 is exactly the singleton of the initial vertex. -/
theorem reachable_at_depth_inv (G : Graph) (hWF : G.WF) (N d : Nat)
    (hd : d ≤ N) :
    ((G.reserveStatesAtDepth N).getD d ∅).card ≤ G.size ∧
      (G.reserveStatesAtDepth N).getD 0 ∅ = {G.init} := by
  constructor
  · have hg : (G.reserveStatesAtDepth N).getD d ∅ = G.statesAtDepth d :=
      getD_map_range (N + 1) _ d (by omega) ∅
    rw [hg]
    calc (G.statesAtDepth d).card
        ≤ (Finset.range G.size).card :=
          Finset.card_le_card (G.statesAtDepth_subset hWF d)
      _ = G.size := Finset.card_range G.size
  · have hg : (G.reserveStatesAtDepth N).getD 0 ∅ = G.statesAtDepth 0 :=
      getD_map_range (N + 1) _ 0 (by omega) ∅
    rw [hg]
    rfl

/-- Witness for C6 on the even-number-of-ones automaton at N = 5, d = 2. -/
theorem reachable_at_depth_inv_witness :
    (evenOnesG.WF ∧ 2 ≤ 5) ∧
      (((evenOnesG.reserveStatesAtDepth 5).getD 2 ∅).card ≤ evenOnesG.size ∧
        (evenOnesG.reserveStatesAtDepth 5).getD 0 ∅ = {evenOnesG.init}) :=
  ⟨⟨by decide, by decide⟩,
    reachable_at_depth_inv evenOnesG (by decide) 5 2 (by decide)⟩

/-!
## Claim C4: handling of a missing bootstrapping key
-/

/-- The failure modes of the driver relevant to key loading. -/
inductive RunErr
  | emptyOptionalDeref
deriving DecidableEq

/-- Translated from src/src/main.cpp (do_run_offline_dfa line 90,
do_run_online_dfa line 118, do_run_online_dfa2 line 143): although the bkey
filename parameter is an optional defaulting to nullopt and the command
line does not require the option for these modes, the BKey archive is read
from the dereferenced optional unconditionally; dereferencing the empty
optional has no value (undefined behavior), modelled as an error. -/
def loadBKeyCurrent (bkey_filename : Option String) : Except RunErr String :=
  match bkey_filename with
  | some f => Except.ok f
  | none => Except.error RunErr.emptyOptionalDeref

/-- Translated from src/unnamed/part_001 (do_run_offline_dfa, lines 63-65):
the predecessor of the current driver reads the gate key only when a
filename is present and otherwise hands the runner a null gate key. -/
def loadGateKeyOld (bkey_filename : Option String) : Option String :=
  match bkey_filename with
  | some f => some f
  | none => none

/-- Modelled from the spec (section 4.3): the offline evaluator bootstraps
once per input by default and never when the gate key is absent. -/
def offlineBootstrapEnabled (gkey : Option String) : Bool := gkey.isSome

/-- C4, evaluated at the failing input: with no bkey file given, the
current driver dereferences the empty optional instead of proceeding,
while the predecessor driver in part_001 hands the runner no gate key and
the offline evaluator then runs with bootstrapping disabled, which is the
behavior the claim describes. -/
theorem offline_bkey_optional_deref :
    loadBKeyCurrent none = Except.error RunErr.emptyOptionalDeref ∧
      loadGateKeyOld none = none ∧
      offlineBootstrapEnabled (loadGateKeyOld none) = false :=
  ⟨rfl, rfl, rfl⟩

/-!
## Claim C7: online-qtrlwe2 runner parameters
-/

/-- Translated from src/src/main.cpp (line 248 and the run-online-dfa
option registration): the first LUT max depth variable is initialized to 8
and overwritten only when the option occurs on the command line. -/
def parsedFirstLutMaxDepth (cli : Option Nat) : Nat :=
  match cli with
  | some d => d
  | none => 8

/-- Modelled from the spec (section 4.6): the state of OnlineDFARunner3
fixed at construction; the class itself is not under src/. -/
structure OnlineDFARunner3 where
  graph : Graph
  firstLutMaxDepth : Nat
  secondLutMaxDepth : Nat
  queueSize : Nat

/-- Modelled from the spec (section 4.6): the constructor receives the
first LUT depth, derives the second LUT depth from the queue budget, and
sets the queue size to their sum; all three stay fixed for the lifetime of
the runner. -/
def OnlineDFARunner3.construct (g : Graph) (d1 d2 : Nat) :
    OnlineDFARunner3 :=
  ⟨g, d1, d2, d1 + d2⟩

/-- C7: the first-LUT max depth defaults to 8 when absent from the command
line, and every constructed runner satisfies queue size = first LUT depth
plus second LUT depth. -/
theorem online3_queue_invariant (g : Graph) (cli : Option Nat) (d2 : Nat) :
    parsedFirstLutMaxDepth none = 8 ∧
      (OnlineDFARunner3.construct g (parsedFirstLutMaxDepth cli) d2).queueSize
        =
      (OnlineDFARunner3.construct g (parsedFirstLutMaxDepth cli)
          d2).firstLutMaxDepth +
        (OnlineDFARunner3.construct g (parsedFirstLutMaxDepth cli)
          d2).secondLutMaxDepth :=
  ⟨rfl, rfl⟩

/-!
## Claims C8, C9, C10: the LTL entry points
-/

/-- Translated from src/src/main.cpp (do_ltl2spec, lines 207-211): the
graph produced by the external LTL translator is minimized unconditionally
before being dumped; no flag can skip the minimization.  The translator is
out of scope (spec, section 1), so the dumped graph is modelled as a
function of the translator output. -/
def do_ltl2spec (fromLtl : Graph) : Graph := fromLtl.minimized

/-- C8: the DFA written to standard output by ltl2spec is always the
minimized DFA of the formula, and it accepts exactly the words the
translated formula automaton accepts. -/
theorem ltl2spec_always_minimized (fromLtl : Graph) (hWF : fromLtl.WF)
    (w : List Bool) :
    do_ltl2spec fromLtl = fromLtl.minimized ∧
      (do_ltl2spec fromLtl).accept w = fromLtl.accept w :=
  ⟨rfl, fromLtl.minimized_accept hWF w⟩

/-- A stand-in for the output of the external LTL translator: a three-state
automaton accepting the words that contain a one. -/
def ltlSampleG : Graph :=
  { size := 3, init := 0, finals := [1, 2], delta0 := [0, 1, 2],
    delta1 := [1, 1, 2] }

/-- Witness for C8 at a concrete translator output and word. -/
theorem ltl2spec_always_minimized_witness :
    ltlSampleG.WF ∧
      (do_ltl2spec ltlSampleG = ltlSampleG.minimized ∧
        (do_ltl2spec ltlSampleG).accept [false, true] =
          ltlSampleG.accept [false, true]) :=
  ⟨by decide, ltl2spec_always_minimized ltlSampleG (by decide) [false, true]⟩

/-- Translated from src/src/main.cpp (do_ltl2dot, lines 213-225): negation
is applied first when requested, then reversal; when the minimized flag is
set the minimization of the composed graph is dumped, otherwise the
composed graph itself is dumped, and the composed graph is never mutated
by the minimization. -/
def do_ltl2dot (g : Graph) (minFlag revFlag negFlag : Bool) : Graph :=
  let g1 := bif negFlag then g.negated else g
  let g2 := bif revFlag then g1.reversed else g1
  bif minFlag then g2.minimized else g2

/-- C9: for every flag combination the transformations compose in the
fixed order negation, reversal, minimization: the graph dumped with the
minimized flag is exactly the minimization of the graph dumped without it,
which in turn is reversal applied after negation. -/
theorem ltl2dot_composition (g : Graph) (revFlag negFlag : Bool) :
    do_ltl2dot g true revFlag negFlag =
      Graph.minimized (do_ltl2dot g false revFlag negFlag) ∧
      do_ltl2dot g false revFlag negFlag =
        (bif revFlag then (bif negFlag then g.negated else g).reversed
         else (bif negFlag then g.negated else g)) := by
  cases revFlag <;> cases negFlag <;> exact ⟨rfl, rfl⟩

/-- Translated from src/src/main.cpp (lines 243-244): the flag variables
minimized and reversed are initialized to false, but negated is declared
without an initializer, so its value before command-line parsing is
indeterminate; that indeterminate value is taken here as a parameter.  The
flag binding writes the variable only when the flag occurs on the command
line. -/
def negatedFlagValue (indeterminate : Bool) (flagOnCmdLine : Bool) : Bool :=
  bif flagOnCmdLine then true else indeterminate

/-- Translated from src/src/main.cpp (the LTL2DOT dispatch): the dumped
graph as a function of the command-line flags and of the indeterminate
initial value of the negated variable. -/
def ltl2dotMain (g : Graph) (indeterminate : Bool)
    (minFlag revFlag negFlag : Bool) : Graph :=
  do_ltl2dot g minFlag revFlag (negatedFlagValue indeterminate negFlag)

/-- A one-state automaton whose negation differs from it. -/
def oneStateG : Graph :=
  { size := 1, init := 0, finals := [0], delta0 := [0], delta1 := [0] }

/-- C10, evaluated at the failing input: two ltl2dot invocations with
identical command lines that omit the negated flag may dump different
graphs, because the negation decision reads the uninitialized flag
variable; the dumped graph is not a deterministic function of the command
line alone. -/
theorem ltl2dot_negated_uninitialized :
    ltl2dotMain oneStateG true false false false ≠
      ltl2dotMain oneStateG false false false false := by
  decide
